import Mathlib

/-!
Verification of the strategy-prediction core of the VisionF1 backend
(`visionf1/ml/strategy_predictor.py`), as a shallow embedding in Lean.

Floating-point values that the Python code manipulates with exact-result
operations (comparisons, min/max, rounding, division by nonzero values) are
modelled as rationals; quantities produced by `sqrt`/`exp` are modelled as
real numbers.  Loaded ML artifacts (the survival models and the
next-compound classifier) are opaque to the core, so their outputs enter the
embedding as explicit parameters or oracle functions.
-/

namespace VisionF1

/-- Constant table `MAX_LEN_BY_COMPOUND = {"SOFT": 20, "MEDIUM": 32, "HARD": 48}`. -/
def MAX_LEN_BY_COMPOUND : List (String × ℤ) :=
  [("SOFT", 20), ("MEDIUM", 32), ("HARD", 48)]

/-- Constant table `DURA_OVERRIDES` of per-circuit durability overrides. -/
def DURA_OVERRIDES : List (String × List (String × ℤ)) :=
  [("Monaco", [("SOFT", 30), ("MEDIUM", 40), ("HARD", 55)]),
   ("Zandvoort", [("SOFT", 28), ("MEDIUM", 38), ("HARD", 54)])]

/-- Embedding of `_durability_ok` (strategy_predictor.py lines 87-92):
`max_len = MAX_LEN_BY_COMPOUND.get(compound, 60)`, replaced by
`DURA_OVERRIDES[circuit][compound]` when both lookups succeed; accept when
`q50 <= max_len and (q75 - q25) <= max_len`. -/
def durability_ok (compound : String) (q25 q50 q75 : ℚ) (circuit : String) : Bool :=
  let max_len : ℤ := (MAX_LEN_BY_COMPOUND.lookup compound).getD 60
  let max_len : ℤ :=
    match DURA_OVERRIDES.lookup circuit with
    | some tbl =>
      match tbl.lookup compound with
      | some v => v
      | none => max_len
    | none => max_len
  let iqr := q75 - q25
  decide (q50 ≤ (max_len : ℚ) ∧ iqr ≤ (max_len : ℚ))

/-- The maximum stint length as the spec words it for claim C8: the
per-circuit override value when the circuit has an override entry for the
compound, otherwise the compound generic default. -/
def specMaxLen (circuit compound : String) : ℤ :=
  match DURA_OVERRIDES.lookup circuit with
  | some tbl =>
    match tbl.lookup compound with
    | some v => v
    | none => (MAX_LEN_BY_COMPOUND.lookup compound).getD 60
  | none => (MAX_LEN_BY_COMPOUND.lookup compound).getD 60

/-- Ascending sort of three rationals, modelling
`sorted([float(q25), float(q50), float(q75)])`. -/
def sort3Q (a b c : ℚ) : ℚ × ℚ × ℚ :=
  if a ≤ b then
    if b ≤ c then (a, b, c)
    else if a ≤ c then (a, c, b) else (c, a, b)
  else
    if a ≤ c then (b, a, c)
    else if b ≤ c then (b, c, a) else (c, b, a)

/-- Ascending sort of three integers, modelling
`sorted([q25i, q50i, q75i])`. -/
def sort3Z (a b c : ℤ) : ℤ × ℤ × ℤ :=
  if a ≤ b then
    if b ≤ c then (a, b, c)
    else if a ≤ c then (a, c, b) else (c, a, b)
  else
    if a ≤ c then (b, a, c)
    else if b ≤ c then (b, c, a) else (c, b, a)

/-- The upper cap `hi_cap = max(6, total_laps - 1)` of `_quantiles_for`. -/
def hi_cap (total_laps : ℤ) : ℤ := max 6 (total_laps - 1)

/-- The per-component cap `int(max(lo_cap, min(hi_cap, round(float(v)))))`
of `_quantiles_for`, with `lo_cap = 5`. -/
def capQ (total_laps : ℤ) (v : ℚ) : ℤ :=
  max 5 (min (hi_cap total_laps) (round v))

/-- Widening of degenerate ranges followed by the defensive re-sort
(strategy_predictor.py lines 194-201), on the capped integer triple.
Python floor division `//` is `Int.fdiv`. -/
def widenResort (total_laps q25i q50i q75i : ℤ) : ℤ × ℤ × ℤ :=
  let w :=
    if q75i - q25i < 6 then
      let mid := (q25i + q75i).fdiv 2
      let q25w := max 5 (mid - 3)
      let q75w := min (hi_cap total_laps) (q25w + 6)
      let q50w := max q25w (min (q75w - 1) q50i)
      (q25w, q50w, q75w)
    else (q25i, q50i, q75i)
  if w.1 ≤ w.2.1 ∧ w.2.1 ≤ w.2.2 then w else sort3Z w.1 w.2.1 w.2.2

/-- Embedding of the sort / cap / widen / re-sort tail of `_quantiles_for`
(strategy_predictor.py lines 181-204), applied to a raw (finite) quantile
triple. -/
def quantilesCore (raw : ℚ × ℚ × ℚ) (total_laps : ℤ) : ℤ × ℤ × ℤ :=
  let s := sort3Q raw.1 raw.2.1 raw.2.2
  widenResort total_laps (capQ total_laps s.1) (capQ total_laps s.2.1)
    (capQ total_laps s.2.2)

/-- The raw value triple that reaches line 181 of `_quantiles_for`
(strategy_predictor.py lines 163-179).  Each float is modelled as
`Option ℚ`: `some` a rational when finite, `none` when non-finite (NaN or
an infinity).  The model-output triple is all-finite when present, since
line 171 diverts any non-finite model output to the fallback; a stored
`fallback_q` triple may have non-finite components; the hardcoded default
(15, 22, 35) is finite. -/
def rawOf (modelOut : Option (ℚ × ℚ × ℚ))
    (fallback : Option (Option ℚ × Option ℚ × Option ℚ)) :
    Option ℚ × Option ℚ × Option ℚ :=
  match modelOut with
  | some t => (some t.1, some t.2.1, some t.2.2)
  | none =>
    match fallback with
    | some fb => fb
    | none => (some 15, some 22, some 35)

/-- Lines 181-201 of `_quantiles_for` on the raw triple.  When every raw
component is finite, the triple is sorted, capped, widened and re-sorted
(`quantilesCore`).  When some raw component is non-finite, `_cap` (line
186) yields `None` for it no matter where the sort of line 181 placed it,
so line 192 replaces the whole triple with the unclamped (15, 22, 35),
and the widen / re-sort steps of lines 194-201 (`widenResort`) then run
on that triple (they leave it unchanged, see `widenResort_default`). -/
def quantilesDispatch (raw : Option ℚ × Option ℚ × Option ℚ) (total_laps : ℤ) :
    ℤ × ℤ × ℤ :=
  match raw with
  | (some a, some b, some c) => quantilesCore (a, b, c) total_laps
  | _ => widenResort total_laps 15 22 35

/-- Embedding of `_quantiles_for` (strategy_predictor.py lines 132-204)
for one cache key.  The loaded survival model is opaque, so its behaviour
enters through two parameters: `hasModel` is `compound in self.surv`, and
`modelOut` is `some` triple when `predict_percentile` returned all-finite
values and `none` when it raised or produced a non-finite component (the
line 171 check).  The cache only memoises the result, so it is not
represented. -/
def quantiles_for (hasModel : Bool) (modelOut : Option (ℚ × ℚ × ℚ))
    (fallback : Option (Option ℚ × Option ℚ × Option ℚ)) (total_laps : ℤ) :
    ℤ × ℤ × ℤ :=
  if hasModel = false then (15, 22, 35)
  else quantilesDispatch (rawOf modelOut fallback) total_laps

/-- All ordered compound sequences of a given length over the allowed
compound list, in the order produced by `itertools.product(compounds,
repeat=n)`. -/
def seqsOfLen (cs : List String) : ℕ → List (List String)
  | 0 => [[]]
  | n + 1 => cs.flatMap fun c => (seqsOfLen cs n).map fun t => c :: t

/-- Embedding of the template enumeration loop of `predict`
(strategy_predictor.py lines 330-333): `for n in range(2, max_stops + 2)`
over `product(compounds, repeat=n)`. -/
def genTemplates (cs : List String) (max_stops : ℕ) : List (List String) :=
  (List.range' 2 max_stops).flatMap (seqsOfLen cs)

/-- Possible outcomes of one Monte-Carlo simulation run of
`_simulate_template`: the mid-run durability re-check failed (aborting the
whole template), the run was discarded (negative remaining laps, or the
modelling artifact of an exhausted draw stream), or the run produced a
stint-length list. -/
inductive RunOutcome where
  | gateFail : RunOutcome
  | invalid : RunOutcome
  | valid : List ℤ → RunOutcome

/-- The stint-length draw of `_simulate_template` line 269:
`np.clip(draw, 1, max(1, laps_left - 1))`, where `draw` is the value the
seeded generator returned from `randint(q25, q75 + 1)`. -/
def drawLen (left d : ℤ) : ℤ := min (max 1 (left - 1)) (max d 1)

/-- One simulation run of the per-stint loop of `_simulate_template`
(strategy_predictor.py lines 258-276).  `q` is the (cached, hence
deterministic) quantile estimator for the fixed circuit / temperature /
total-laps context, `i` the 0-based position of the current stint in the
template, `left` the remaining lap count and `draws` the stream of raw
random values.  Each stint except the last re-checks durability and draws
a clamped length; the final stint absorbs all remaining laps. -/
def simStints (q : String → ℕ → ℤ × ℤ × ℤ) (circuit : String) :
    List String → ℕ → ℤ → List ℤ → RunOutcome
  | [], _, _, _ => RunOutcome.valid []
  | [_], _, left, _ => RunOutcome.valid [left]
  | c :: c2 :: rest, i, left, d :: ds =>
    let t := q c (i + 1)
    if durability_ok c (t.1 : ℚ) (t.2.1 : ℚ) (t.2.2 : ℚ) circuit then
      let l := drawLen left d
      let leftNew := left - l
      if leftNew < 0 then RunOutcome.invalid
      else
        match simStints q circuit (c2 :: rest) (i + 1) leftNew ds with
        | RunOutcome.valid lens => RunOutcome.valid (l :: lens)
        | out => out
    else RunOutcome.gateFail
  | _ :: _ :: _, _, _, [] => RunOutcome.invalid

/-- The pre-simulation durability gating of one template in `predict`
(strategy_predictor.py lines 340-348), written as a recursion over the
template that mirrors `for i, c in enumerate(tpl[:-1])` with stint index
`i + 1`; the parameter is the 0-based position of the head stint. -/
def gatePassFrom (q : String → ℕ → ℤ × ℤ × ℤ) (circuit : String) :
    ℕ → List String → Bool
  | _, [] => true
  | _, [_] => true
  | i, c :: c2 :: rest =>
    let t := q c (i + 1)
    durability_ok c (t.1 : ℚ) (t.2.1 : ℚ) (t.2.2 : ℚ) circuit &&
      gatePassFrom q circuit (i + 1) (c2 :: rest)

/-- A template passes the `predict` durability gate when every stint except
the last passes `_durability_ok` on its quantile triple. -/
def gatePass (q : String → ℕ → ℤ × ℤ × ℤ) (circuit : String)
    (tpl : List String) : Bool :=
  gatePassFrom q circuit 0 tpl

/-- The initial pit-cut candidate of `_windows_to_stints` line 102:
`int(max(2, min(total_laps - 1, round(lo))))` for a window lower bound
`lo` (an integer percentile, so rounding is the identity). -/
def clampCut (total_laps lo : ℤ) : ℤ := max 2 (min (total_laps - 1) lo)

/-- The strictly-increasing fixup loop of `_windows_to_stints` lines
104-106: each cut that does not exceed its predecessor is replaced by
predecessor + 1; `prev` is the value of the previous (already fixed) cut. -/
def fixupFrom (prev : ℤ) : List ℤ → List ℤ
  | [] => []
  | c :: rest =>
    let c2 := if c ≤ prev then prev + 1 else c
    c2 :: fixupFrom c2 rest

/-- Line 107 of `_windows_to_stints`:
`cuts[-1] = max(cuts[-1], cuts[-2] + 1)` (identity on lists with fewer
than two elements, which cannot occur at the call site). -/
def bumpLast : List ℤ → List ℤ
  | [] => []
  | [a] => [a]
  | [a, b] => [a, max b (a + 1)]
  | a :: b :: c :: rest => a :: bumpLast (b :: c :: rest)

/-- The stint-assembly loop of `_windows_to_stints` lines 109-115: pair the
i-th compound with cut points (cuts[i], cuts[i+1]); a nonpositive-length
stint aborts the whole conversion (`none`, the source's `return []`). -/
def buildStints : List String → ℤ → List ℤ → Option (List (String × ℤ × ℤ))
  | [], _, _ => some []
  | _ :: _, _, [] => none
  | c :: cs, start, e :: rest =>
    if e ≤ start then none
    else (buildStints cs e rest).map fun s => (c, start, e) :: s

/-- Cut assembly of `_windows_to_stints` lines 102-115 on the already
clamped middle cuts: prepend the fixed first cut 1 and append the final
boundary total_laps + 1, force strict increase, apply the last-cut bump,
and build the stints (an abort yields `[]`). -/
def windowsCore (tpl : List String) (mids : List ℤ) (total_laps : ℤ) :
    List (String × ℤ × ℤ) :=
  let cuts := bumpLast (1 :: fixupFrom 1 (mids ++ [total_laps + 1]))
  match cuts with
  | [] => []
  | start :: rest2 =>
    match buildStints tpl start rest2 with
    | none => []
    | some s => s

/-- Embedding of `_windows_to_stints` (strategy_predictor.py lines 94-115).
Windows are integer percentile triples (lo, mid, hi); only `lo` is used. -/
def windows_to_stints (template : List String) (windows : List (ℤ × ℤ × ℤ))
    (total_laps : ℤ) : List (String × ℤ × ℤ) :=
  match template with
  | [] => []
  | [c] => [(c, 1, total_laps + 1)]
  | c1 :: c2 :: rest =>
    let tpl := c1 :: c2 :: rest
    let n := tpl.length
    if windows = [] ∨ windows.length < n - 1 then []
    else
      windowsCore tpl ((windows.take (n - 1)).map fun w => clampCut total_laps w.1)
        total_laps

/-- The probability-normalisation step of `predict` line 378:
`probs = score / score.sum() if score.sum() > 0 else
np.ones_like(score) / len(score)`.  Scores are modelled as exact
rationals. -/
def probsFor (scores : List ℚ) : List ℚ :=
  if 0 < scores.sum then scores.map fun x => x / scores.sum
  else List.replicate scores.length ((1 : ℚ) / scores.length)

/-- The `StrategyCandidate` dataclass (strategy_predictor.py lines 28-34);
times and probabilities are modelled as exact rationals. -/
structure StrategyCandidate where
  template : List String
  stints : List (String × ℤ × ℤ)
  windows : List (ℤ × ℤ × ℤ)
  expected_total_race_time : ℚ
  prob : ℚ
deriving DecidableEq

/-- The final ranking step of `predict` lines 383-384:
`results.sort(key=lambda r: r.prob, reverse=True)` (a stable descending
sort) followed by `results[:top_k]`. -/
def rankAndTruncate (results : List StrategyCandidate) (top_k : ℕ) :
    List StrategyCandidate :=
  (results.mergeSort fun a b => decide (b.prob ≤ a.prob)).take top_k

/-- One of two equally likely concrete candidates used to exhibit that
truncation does not renormalise. -/
def candA : StrategyCandidate :=
  ⟨["SOFT", "MEDIUM"], [("SOFT", 1, 26), ("MEDIUM", 26, 61)], [(25, 25, 26)],
    5400, 1 / 2⟩

/-- The second concrete candidate, with the same probability as `candA`. -/
def candB : StrategyCandidate :=
  ⟨["MEDIUM", "SOFT"], [("MEDIUM", 1, 36), ("SOFT", 36, 61)], [(35, 35, 36)],
    5410, 1 / 2⟩

/-- `times.min()` of a nonempty float vector; the empty case (unreachable
at the call site, where `results` is nonempty) is given the junk value 0. -/
noncomputable def listMinR : List ℝ → ℝ
  | [] => 0
  | x :: rest => rest.foldl min x

/-- Population mean, as used by `times.std()` (numpy default ddof = 0). -/
noncomputable def popMeanR (xs : List ℝ) : ℝ := xs.sum / xs.length

/-- Population variance of a float vector. -/
noncomputable def popVarR (xs : List ℝ) : ℝ :=
  ((xs.map fun x => (x - popMeanR xs) ^ 2).sum) / xs.length

/-- `times.std()`: the square root of the population variance. -/
noncomputable def popStdR (xs : List ℝ) : ℝ := Real.sqrt (popVarR xs)

/-- The time normalisation of `predict` line 376:
`norm_time = (times - times.min()) / (times.std() + 1e-9)`. -/
noncomputable def normTimesR (times : List ℝ) : List ℝ :=
  times.map fun t => (t - listMinR times) / (popStdR times + 1 / 1000000000)

/-- The normalisation the spec describes for claim C2, with the population
mean subtracted instead of the minimum; kept for comparison with
`normTimesR`. -/
noncomputable def normTimesSpecMean (times : List ℝ) : List ℝ :=
  times.map fun t => (t - popMeanR times) / (popStdR times + 1 / 1000000000)

/-- The candidate scores of `predict` line 377:
`score = (priors ** 3.0) * np.exp(-norm_time * 0.4)` elementwise, with
ALPHA_HISTORICAL_PRIOR = 3.0 and BETA_TIME_PRIOR = 0.4 = 2/5. -/
noncomputable def scoresOf (times priors : List ℝ) : List ℝ :=
  (priors.zip (normTimesR times)).map fun pz =>
    pz.1 ^ (3 : ℕ) * Real.exp (-pz.2 * (2 / 5))

/-- The scores as the spec words them for claim C2 (mean-based
normalisation); kept for comparison with `scoresOf`. -/
noncomputable def scoresSpecMean (times priors : List ℝ) : List ℝ :=
  (priors.zip (normTimesSpecMean times)).map fun pz =>
    pz.1 ^ (3 : ℕ) * Real.exp (-pz.2 * (2 / 5))

/-- The oracle view of the loaded artifacts used by one `predict` call
with fixed circuit, temperatures and lap count: `quantiles` is the cached
`_quantiles_for` keyed by compound and stint index, and `simulate` is
`_simulate_template`, returning `none` when no simulation run contributed
(the source's `None`) and otherwise the mean time with the pit windows. -/
structure PredictOracles where
  quantiles : String → ℕ → ℤ × ℤ × ℤ
  simulate : List String → Option (ℚ × List (ℤ × ℤ × ℤ))

/-- Control-flow skeleton of `predict` (strategy_predictor.py lines
304-384): the not-initialized guard, template enumeration, the FIA
two-compound filter (`len(set(t)) >= 2`), durability gating, simulation
with window-to-stint conversion (including the dead single-stint fallback
of lines 361-362), and the early empty return of lines 368-369.  The
scoring, normalisation, sort and truncation of lines 371-384 never raise
and are modelled separately (`scoresOf`, `probsFor`, `rankAndTruncate`);
here they enter as the function `post` applied to the scored pool. -/
def predictModel (initialized : Bool) (oc : PredictOracles)
    (post : List StrategyCandidate → List StrategyCandidate)
    (circuit : String) (compounds : List String) (max_stops : ℕ)
    (fia_rule : Bool) (total_laps : ℤ) : Except String (List StrategyCandidate) :=
  if initialized = false then Except.error "Strategy Predictor not initialized"
  else
    let templates := genTemplates compounds max_stops
    let templates :=
      if fia_rule then templates.filter fun t => decide (2 ≤ t.dedup.length)
      else templates
    let gated := templates.filter fun tpl => gatePass oc.quantiles circuit tpl
    let results := gated.filterMap fun tpl =>
      match oc.simulate tpl with
      | none => none
      | some (t, ws) =>
        match windows_to_stints tpl ws total_laps with
        | [] =>
          match tpl with
          | [c] => some ⟨tpl, [(c, 1, total_laps + 1)], ws, t, 0⟩
          | _ => none
        | s0 :: srest => some ⟨tpl, s0 :: srest, ws, t, 0⟩
    if results = [] then Except.ok []
    else Except.ok (post results)

end VisionF1

namespace VisionF1

theorem durability_ok_iff (compound circuit : String) (q25 q50 q75 : ℚ) :
    durability_ok compound q25 q50 q75 circuit = true ↔
      (q50 ≤ (specMaxLen circuit compound : ℚ) ∧
       q75 - q25 ≤ (specMaxLen circuit compound : ℚ)) := by
  unfold durability_ok specMaxLen
  rcases h1 : DURA_OVERRIDES.lookup circuit with _ | tbl
  · simp
  · rcases h2 : tbl.lookup compound with _ | v
    · simp
    · simp

/-- C8: the durability gate accepts iff q50 and the interquartile range both
stay within the effective maximum length, the effective maximum being the
per-circuit override when present and the generic default otherwise; for
Monaco and SOFT the override limit 30 takes precedence over the generic
SOFT limit 20. -/
theorem C8_durability_gate :
    (∀ (compound circuit : String) (q25 q50 q75 : ℚ),
      durability_ok compound q25 q50 q75 circuit = true ↔
        (q50 ≤ (specMaxLen circuit compound : ℚ) ∧
         q75 - q25 ≤ (specMaxLen circuit compound : ℚ))) ∧
    specMaxLen "Monaco" "SOFT" = 30 ∧
    ((MAX_LEN_BY_COMPOUND.lookup "SOFT").getD 60 = 20) ∧
    durability_ok "SOFT" 10 25 32 "Monaco" = true ∧
    durability_ok "SOFT" 10 25 32 "Silverstone" = false := by
  have hmon : specMaxLen "Monaco" "SOFT" = 30 := by decide
  have hsil : specMaxLen "Silverstone" "SOFT" = 20 := by decide
  refine ⟨durability_ok_iff, hmon, by decide, ?_, ?_⟩
  · exact (durability_ok_iff "SOFT" "Monaco" 10 25 32).mpr (by rw [hmon]; norm_num)
  · refine Bool.eq_false_iff.mpr (fun h => ?_)
    have h2 := (durability_ok_iff "SOFT" "Silverstone" 10 25 32).mp h
    rw [hsil] at h2
    norm_num at h2

theorem sort3Q_sorted (a b c : ℚ) :
    (sort3Q a b c).1 ≤ (sort3Q a b c).2.1 ∧ (sort3Q a b c).2.1 ≤ (sort3Q a b c).2.2 := by
  unfold sort3Q
  split_ifs <;> dsimp only <;> exact ⟨by linarith, by linarith⟩

theorem sort3Z_sorted (a b c : ℤ) :
    (sort3Z a b c).1 ≤ (sort3Z a b c).2.1 ∧ (sort3Z a b c).2.1 ≤ (sort3Z a b c).2.2 := by
  unfold sort3Z
  split_ifs <;> dsimp only <;> exact ⟨by omega, by omega⟩

theorem sort3Z_bounds {lo hi a b c : ℤ} (ha : lo ≤ a ∧ a ≤ hi) (hb : lo ≤ b ∧ b ≤ hi)
    (hc : lo ≤ c ∧ c ≤ hi) :
    (lo ≤ (sort3Z a b c).1 ∧ (sort3Z a b c).1 ≤ hi) ∧
    (lo ≤ (sort3Z a b c).2.1 ∧ (sort3Z a b c).2.1 ≤ hi) ∧
    (lo ≤ (sort3Z a b c).2.2 ∧ (sort3Z a b c).2.2 ≤ hi) := by
  unfold sort3Z
  split_ifs <;> dsimp only <;> exact ⟨by omega, by omega, by omega⟩

theorem six_le_hi_cap (tl : ℤ) : 6 ≤ hi_cap tl := le_max_left 6 (tl - 1)

theorem capQ_bounds (tl : ℤ) (v : ℚ) : 5 ≤ capQ tl v ∧ capQ tl v ≤ hi_cap tl := by
  have h6 := six_le_hi_cap tl
  unfold capQ
  simp only [max_def, min_def]
  split_ifs <;> omega

theorem capQ_mono (tl : ℤ) {v w : ℚ} (h : v ≤ w) : capQ tl v ≤ capQ tl w := by
  have hr : round v ≤ round w := by
    rw [round_eq, round_eq]
    exact Int.floor_le_floor (by linarith)
  unfold capQ
  simp only [max_def, min_def]
  split_ifs <;> omega

theorem widenResort_spec (tl A B C : ℤ) (bA : 5 ≤ A ∧ A ≤ hi_cap tl)
    (bB : 5 ≤ B ∧ B ≤ hi_cap tl) (bC : 5 ≤ C ∧ C ≤ hi_cap tl) :
    ((widenResort tl A B C).1 ≤ (widenResort tl A B C).2.1 ∧
     (widenResort tl A B C).2.1 ≤ (widenResort tl A B C).2.2) ∧
    (5 ≤ (widenResort tl A B C).1 ∧ (widenResort tl A B C).1 ≤ hi_cap tl) ∧
    (5 ≤ (widenResort tl A B C).2.1 ∧ (widenResort tl A B C).2.1 ≤ hi_cap tl) ∧
    (5 ≤ (widenResort tl A B C).2.2 ∧ (widenResort tl A B C).2.2 ≤ hi_cap tl) := by
  have h6 := six_le_hi_cap tl
  have hfd : (A + C).fdiv 2 = (A + C) / 2 := Int.fdiv_eq_ediv _ (by norm_num)
  unfold widenResort
  dsimp only
  split_ifs with hw hord hord
  · refine ⟨hord, ?_, ?_, ?_⟩ <;> dsimp only <;>
      simp only [max_def, min_def] at * <;> split_ifs at * <;> omega
  · refine ⟨sort3Z_sorted _ _ _, ?_⟩
    refine sort3Z_bounds ?_ ?_ ?_ <;> dsimp only <;>
      simp only [max_def, min_def] at * <;> split_ifs at * <;> omega
  · exact ⟨hord, bA, bB, bC⟩
  · exact ⟨sort3Z_sorted _ _ _, sort3Z_bounds bA bB bC⟩

theorem quantilesCore_spec (raw : ℚ × ℚ × ℚ) (tl : ℤ) :
    ((quantilesCore raw tl).1 ≤ (quantilesCore raw tl).2.1 ∧
     (quantilesCore raw tl).2.1 ≤ (quantilesCore raw tl).2.2) ∧
    (5 ≤ (quantilesCore raw tl).1 ∧ (quantilesCore raw tl).1 ≤ hi_cap tl) ∧
    (5 ≤ (quantilesCore raw tl).2.1 ∧ (quantilesCore raw tl).2.1 ≤ hi_cap tl) ∧
    (5 ≤ (quantilesCore raw tl).2.2 ∧ (quantilesCore raw tl).2.2 ≤ hi_cap tl) := by
  have b25 := capQ_bounds tl (sort3Q raw.1 raw.2.1 raw.2.2).1
  have b50 := capQ_bounds tl (sort3Q raw.1 raw.2.1 raw.2.2).2.1
  have b75 := capQ_bounds tl (sort3Q raw.1 raw.2.1 raw.2.2).2.2
  exact widenResort_spec tl _ _ _ b25 b50 b75

theorem widenResort_default (tl : ℤ) : widenResort tl 15 22 35 = (15, 22, 35) := by
  unfold widenResort
  norm_num

theorem quantiles_for_true_eq (modelOut : Option (ℚ × ℚ × ℚ))
    (fallback : Option (Option ℚ × Option ℚ × Option ℚ)) (tl : ℤ) :
    (∃ a b c : ℚ, rawOf modelOut fallback = (some a, some b, some c) ∧
      quantiles_for true modelOut fallback tl = quantilesCore (a, b, c) tl) ∨
    (((rawOf modelOut fallback).1 = none ∨ (rawOf modelOut fallback).2.1 = none ∨
        (rawOf modelOut fallback).2.2 = none) ∧
      quantiles_for true modelOut fallback tl = (15, 22, 35)) := by
  rcases hr : rawOf modelOut fallback with ⟨oa, ob, oc⟩
  have hq : quantiles_for true modelOut fallback tl = quantilesDispatch (oa, ob, oc) tl := by
    show quantilesDispatch (rawOf modelOut fallback) tl = _
    rw [hr]
  rcases oa with _ | a
  · exact Or.inr ⟨Or.inl rfl, hq.trans (widenResort_default tl)⟩
  · rcases ob with _ | b
    · exact Or.inr ⟨Or.inr (Or.inl rfl), hq.trans (widenResort_default tl)⟩
    · rcases oc with _ | c
      · exact Or.inr ⟨Or.inr (Or.inr rfl), hq.trans (widenResort_default tl)⟩
      · exact Or.inl ⟨a, b, c, rfl, hq⟩

/-- C1 (counterexample): two fallback paths of `_quantiles_for` return the
fixed triple (15, 22, 35) without clamping: the missing-model path (line
140), and — with a survival model present — the path where the model
output is non-finite and the stored fallback_q itself has a non-finite
component (lines 186-192).  With total_laps = 10 the claimed upper bound
is max(6, 10 - 1) = 9 < 35 on both paths. -/
theorem C1_counterexample :
    quantiles_for false none none 10 = (15, 22, 35) ∧
    ¬((quantiles_for false none none 10).2.2 ≤ max 6 (10 - 1)) ∧
    quantiles_for true none (some (some 15, some 22, none)) 10 = (15, 22, 35) ∧
    ¬((quantiles_for true none (some (some 15, some 22, none)) 10).2.2 ≤
        max 6 (10 - 1)) := by
  have h2 : quantiles_for true none (some (some 15, some 22, none)) 10 = (15, 22, 35) := by
    show quantilesDispatch (some 15, some 22, none) 10 = (15, 22, 35)
    exact widenResort_default 10
  refine ⟨rfl, ?_, h2, ?_⟩
  · show ¬((35 : ℤ) ≤ max 6 (10 - 1))
    norm_num
  · rw [h2]
    show ¬((35 : ℤ) ≤ max 6 (10 - 1))
    norm_num

/-- C1 (amended): the quantile triple always satisfies q25 ≤ q50 ≤ q75.
When a survival model exists for the compound and the raw triple that
reaches the capping stage is entirely finite — the finite model output, a
fully finite stored fallback, or the finite hardcoded default — every
component lies within [5, max(6, total_laps - 1)].  Two fallback paths
instead return the unclamped fixed triple (15, 22, 35): when no survival
model exists for the compound, and when the model output is non-finite
while the stored fallback has a non-finite component; the unclamped
triple respects the bound only when total_laps ≥ 36. -/
theorem C1_quantile_caps (hasModel : Bool) (modelOut : Option (ℚ × ℚ × ℚ))
    (fallback : Option (Option ℚ × Option ℚ × Option ℚ)) (tl : ℤ) :
    ((quantiles_for hasModel modelOut fallback tl).1 ≤
        (quantiles_for hasModel modelOut fallback tl).2.1 ∧
      (quantiles_for hasModel modelOut fallback tl).2.1 ≤
        (quantiles_for hasModel modelOut fallback tl).2.2) ∧
    (hasModel = true →
      (∀ a b c : ℚ, rawOf modelOut fallback = (some a, some b, some c) →
        (5 ≤ (quantiles_for hasModel modelOut fallback tl).1 ∧
          (quantiles_for hasModel modelOut fallback tl).1 ≤ max 6 (tl - 1)) ∧
        (5 ≤ (quantiles_for hasModel modelOut fallback tl).2.1 ∧
          (quantiles_for hasModel modelOut fallback tl).2.1 ≤ max 6 (tl - 1)) ∧
        (5 ≤ (quantiles_for hasModel modelOut fallback tl).2.2 ∧
          (quantiles_for hasModel modelOut fallback tl).2.2 ≤ max 6 (tl - 1))) ∧
      (((rawOf modelOut fallback).1 = none ∨ (rawOf modelOut fallback).2.1 = none ∨
          (rawOf modelOut fallback).2.2 = none) →
        quantiles_for hasModel modelOut fallback tl = (15, 22, 35))) ∧
    (hasModel = false → quantiles_for hasModel modelOut fallback tl = (15, 22, 35)) := by
  cases hasModel with
  | false =>
    have he : quantiles_for false modelOut fallback tl = (15, 22, 35) := rfl
    rw [he]
    exact ⟨⟨by norm_num, by norm_num⟩, fun h => (Bool.false_ne_true h).elim, fun _ => rfl⟩
  | true =>
    rcases quantiles_for_true_eq modelOut fallback tl with
      ⟨a, b, c, hr, he⟩ | ⟨hnone, he⟩
    · have h := quantilesCore_spec (a, b, c) tl
      have hhc : hi_cap tl = max 6 (tl - 1) := rfl
      rw [hhc] at h
      rw [he]
      refine ⟨h.1, fun _ => ⟨?_, ?_⟩, fun hf => absurd hf (by decide)⟩
      · intro a2 b2 c2 habc
        rw [hr] at habc
        obtain ⟨h1, h2, h3⟩ : a = a2 ∧ b = b2 ∧ c = c2 := by simpa using habc
        subst h1
        subst h2
        subst h3
        exact h.2
      · intro hn
        rw [hr] at hn
        simp at hn
    · rw [he]
      refine ⟨⟨by norm_num, by norm_num⟩, fun _ => ⟨?_, fun _ => rfl⟩,
        fun hf => absurd hf (by decide)⟩
      intro a2 b2 c2 habc
      rcases hnone with h1 | h2 | h3
      · rw [habc] at h1
        simp at h1
      · rw [habc] at h2
        simp at h2
      · rw [habc] at h3
        simp at h3

theorem mem_seqsOfLen (cs : List String) (n : ℕ) (t : List String) :
    t ∈ seqsOfLen cs n ↔ t.length = n ∧ ∀ c ∈ t, c ∈ cs := by
  induction n generalizing t with
  | zero =>
    simp only [seqsOfLen, List.mem_singleton]
    constructor
    · rintro rfl
      exact ⟨rfl, by intro c hc; cases hc⟩
    · rintro ⟨h, _⟩
      exact List.length_eq_zero.mp h
  | succ n ih =>
    simp only [seqsOfLen, List.mem_flatMap, List.mem_map]
    constructor
    · rintro ⟨c, hc, t', ht', rfl⟩
      obtain ⟨hl, hall⟩ := (ih t').mp ht'
      refine ⟨by simp [hl], ?_⟩
      intro x hx
      rcases List.mem_cons.mp hx with rfl | hx
      · exact hc
      · exact hall x hx
    · rintro ⟨hl, hall⟩
      cases t with
      | nil => cases hl
      | cons c t' =>
        refine ⟨c, hall c (List.mem_cons_self c t'), t', ?_, rfl⟩
        refine (ih t').mpr ⟨by simpa using hl, ?_⟩
        intro x hx
        exact hall x (List.mem_cons_of_mem c hx)

/-- C3 (counterexample): with max_stops = 0 and the non-empty compound set
containing only SOFT, the enumerator produces no templates at all —
`range(2, 2)` is empty — so in particular the 2-stint template
[SOFT, SOFT] is not produced, contradicting the claim that exactly the
2-stint templates are produced. -/
theorem C3_counterexample :
    genTemplates ["SOFT"] 0 = [] ∧
    ["SOFT", "SOFT"] ∉ genTemplates ["SOFT"] 0 ∧
    (["SOFT", "SOFT"] : List String).length = 2 ∧
    ∀ c ∈ (["SOFT", "SOFT"] : List String), c ∈ (["SOFT"] : List String) := by
  refine ⟨rfl, by simp [genTemplates, List.range'], by decide, by decide⟩

/-- C3 (amended): the enumerator produces exactly the ordered compound
sequences whose length lies in the half-open interval [2, max_stops + 2)
with every element drawn from the allowed set; for max_stops = 0 this
interval is empty, so no templates (in particular no 2-stint templates)
are produced. -/
theorem C3_templates (cs : List String) (ms : ℕ) (t : List String) :
    t ∈ genTemplates cs ms ↔
      2 ≤ t.length ∧ t.length < ms + 2 ∧ ∀ c ∈ t, c ∈ cs := by
  unfold genTemplates
  simp only [List.mem_flatMap, List.mem_range'_1]
  constructor
  · rintro ⟨n, ⟨h2, hlt⟩, ht⟩
    obtain ⟨hl, hall⟩ := (mem_seqsOfLen cs n t).mp ht
    subst hl
    exact ⟨h2, by omega, hall⟩
  · rintro ⟨h2, hlt, hall⟩
    exact ⟨t.length, ⟨h2, by omega⟩, (mem_seqsOfLen cs t.length t).mpr ⟨rfl, hall⟩⟩

/-- Witness for the amended C1 theorem at a concrete input. -/
theorem C1_quantile_caps_witness :
    5 ≤ (quantiles_for true (some (1, 2, 3)) none 60).1 ∧
    (quantiles_for true (some (1, 2, 3)) none 60).2.2 ≤ max 6 (60 - 1) :=
  ⟨(((C1_quantile_caps true (some (1, 2, 3)) none 60).2.1 rfl).1 1 2 3 rfl).1.1,
   (((C1_quantile_caps true (some (1, 2, 3)) none 60).2.1 rfl).1 1 2 3 rfl).2.2.2⟩

theorem one_le_drawLen (left d : ℤ) : 1 ≤ drawLen left d := by
  unfold drawLen
  simp only [min_def, max_def]
  split_ifs <;> omega

theorem simStints_valid_parts (q : String → ℕ → ℤ × ℤ × ℤ) (circuit : String) :
    ∀ (tpl : List String) (i : ℕ) (left : ℤ) (draws : List ℤ) (lens : List ℤ),
      0 ≤ left →
      simStints q circuit tpl i left draws = RunOutcome.valid lens →
      lens.length = tpl.length ∧
      (tpl ≠ [] → lens.sum = left) ∧
      (∀ j (hj : j < lens.length), j + 1 < lens.length → 1 ≤ lens.get ⟨j, hj⟩) ∧
      (∀ x ∈ lens, 0 ≤ x) := by
  intro tpl
  induction tpl with
  | nil =>
    intro i left draws lens h0 h
    simp only [simStints, RunOutcome.valid.injEq] at h
    subst h
    refine ⟨rfl, fun hne => absurd rfl hne, ?_, ?_⟩
    · intro j hj
      simp at hj
    · intro x hx
      cases hx
  | cons c rest ih =>
    intro i left draws lens h0 h
    cases rest with
    | nil =>
      simp only [simStints, RunOutcome.valid.injEq] at h
      subst h
      refine ⟨rfl, fun _ => by simp, ?_, ?_⟩
      · intro j hj hj1
        simp at hj1
      · intro x hx
        rcases List.mem_singleton.mp hx with rfl
        exact h0
    | cons c2 rest2 =>
      cases draws with
      | nil => exact RunOutcome.noConfusion h
      | cons d ds =>
        rcases hrec : simStints q circuit (c2 :: rest2) (i + 1)
            (left - drawLen left d) ds with _ | _ | lens'
        all_goals simp only [simStints, hrec] at h
        all_goals split_ifs at h with hdur hneg
        injection h with h'
        subst h'
        obtain ⟨hlen, hsum, hmid, hnn⟩ :=
          ih (i + 1) (left - drawLen left d) ds lens' (by omega) hrec
        refine ⟨by simp [hlen], fun _ => ?_, ?_, ?_⟩
        · have hs := hsum (by simp)
          simp [hs]
        · intro j hj hj1
          cases j with
          | zero => exact one_le_drawLen left d
          | succ j' =>
            have hj' : j' < lens'.length := by
              simpa using hj
            have := hmid j' hj' (by simpa using hj1)
            simpa using this
        · intro x hx
          rcases List.mem_cons.mp hx with rfl | hx
          · have := one_le_drawLen left d
            omega
          · exact hnn x hx

/-- C5 (counterexample): a contributing run whose final stint has length 0.
With total_laps = 60, template [HARD, HARD, SOFT] and quantile triple
(11, 48, 59) — which passes the HARD durability limit 48 — the draws 59
then 30 produce stint lengths [59, 1, 0]: the second stint is clamped to
the single remaining lap (max(1, laps_left − 1) = 1 when laps_left = 1),
the final stint absorbs 0 laps, the lengths still sum to 60, and the run
is counted. -/
theorem C5_counterexample :
    simStints (fun _ _ => (11, 48, 59)) "Spa" ["HARD", "HARD", "SOFT"] 0 60 [59, 30] =
      RunOutcome.valid [59, 1, 0] ∧
    ([59, 1, 0] : List ℤ).sum = 60 ∧
    ¬(∀ x ∈ ([59, 1, 0] : List ℤ), 1 ≤ x) := by
  have hd : durability_ok "HARD" (((11 : ℤ) : ℚ)) (((48 : ℤ) : ℚ)) (((59 : ℤ) : ℚ)) "Spa"
      = true := by
    refine (durability_ok_iff "HARD" "Spa" _ _ _).mpr ?_
    have : specMaxLen "Spa" "HARD" = 48 := by decide
    rw [this]
    constructor <;> push_cast <;> norm_num
  refine ⟨?_, by norm_num, by intro hall; have := hall 0 (by norm_num); omega⟩
  simp only [simStints, hd, if_true, drawLen]
  norm_num

/-- C5 (amended): in every Monte Carlo run that contributes to a template's
statistics the per-stint lap counts sum exactly to total_laps and every
non-final stint has length at least 1; the final stint, which absorbs the
remaining laps, has length at least 0 but can be exactly 0, because the
clamp max(1, laps_left − 1) only leaves a lap for the remaining stints
when laps_left ≥ 2. -/
theorem C5_contributing_run (q : String → ℕ → ℤ × ℤ × ℤ) (circuit : String)
    (tpl : List String) (total_laps : ℤ) (draws : List ℤ) (lens : List ℤ)
    (h0 : 0 ≤ total_laps)
    (hrun : simStints q circuit tpl 0 total_laps draws = RunOutcome.valid lens)
    (hsum : lens.sum = total_laps) :
    lens.length = tpl.length ∧
    lens.sum = total_laps ∧
    (∀ j (hj : j < lens.length), j + 1 < lens.length → 1 ≤ lens.get ⟨j, hj⟩) ∧
    (∀ x ∈ lens, 0 ≤ x) := by
  obtain ⟨hlen, _, hmid, hnn⟩ :=
    simStints_valid_parts q circuit tpl 0 total_laps draws lens h0 hrun
  exact ⟨hlen, hsum, hmid, hnn⟩

/-- Witness for the amended C5 theorem at a concrete input. -/
theorem C5_contributing_run_witness :
    ([20, 40] : List ℤ).length = (["SOFT", "MEDIUM"] : List String).length ∧
    ([20, 40] : List ℤ).sum = 60 ∧
    (∀ j (hj : j < ([20, 40] : List ℤ).length),
      j + 1 < ([20, 40] : List ℤ).length → 1 ≤ ([20, 40] : List ℤ).get ⟨j, hj⟩) ∧
    (∀ x ∈ ([20, 40] : List ℤ), 0 ≤ x) := by
  have hd : durability_ok "SOFT" (((10 : ℤ) : ℚ)) (((15 : ℤ) : ℚ)) (((20 : ℤ) : ℚ)) "Monza"
      = true := by
    refine (durability_ok_iff "SOFT" "Monza" _ _ _).mpr ?_
    have : specMaxLen "Monza" "SOFT" = 20 := by decide
    rw [this]
    constructor <;> push_cast <;> norm_num
  refine C5_contributing_run (fun _ _ => (10, 15, 20)) "Monza" ["SOFT", "MEDIUM"] 60
    [20] [20, 40] (by norm_num) ?_ (by norm_num)
  simp only [simStints, hd, if_true, drawLen]
  norm_num

theorem simStints_ne_gateFail (q : String → ℕ → ℤ × ℤ × ℤ) (circuit : String) :
    ∀ (tpl : List String) (i : ℕ) (left : ℤ) (draws : List ℤ),
      gatePassFrom q circuit i tpl = true →
      simStints q circuit tpl i left draws ≠ RunOutcome.gateFail := by
  intro tpl
  induction tpl with
  | nil =>
    intro i left draws _ h
    exact RunOutcome.noConfusion h
  | cons c rest ih =>
    intro i left draws hgate h
    cases rest with
    | nil => exact RunOutcome.noConfusion h
    | cons c2 rest2 =>
      cases draws with
      | nil => exact RunOutcome.noConfusion h
      | cons d ds =>
        simp only [gatePassFrom, Bool.and_eq_true] at hgate
        obtain ⟨hdur, hrest⟩ := hgate
        rcases hrec : simStints q circuit (c2 :: rest2) (i + 1)
            (left - drawLen left d) ds with _ | _ | lens'
        · exact ih (i + 1) (left - drawLen left d) ds hrest hrec
        · simp only [simStints, hdur, hrec, if_true] at h
          split_ifs at h
        · simp only [simStints, hdur, hrec, if_true] at h
          split_ifs at h

/-- C10: for a template that passed the pre-simulation durability gate of
`predict`, the re-check inside `_simulate_template` queries the same
(cached, deterministic) quantile estimator at the same compound and stint
index, so it can never fail: no simulation run of a gated template ends in
the gate-failure abort. -/
theorem C10_gate_recheck (q : String → ℕ → ℤ × ℤ × ℤ) (circuit : String)
    (tpl : List String) (total_laps : ℤ) (draws : List ℤ)
    (hgate : gatePass q circuit tpl = true) :
    simStints q circuit tpl 0 total_laps draws ≠ RunOutcome.gateFail :=
  simStints_ne_gateFail q circuit tpl 0 total_laps draws hgate

/-- Witness for the C10 theorem at a concrete input. -/
theorem C10_gate_recheck_witness :
    simStints (fun _ _ => (10, 15, 20)) "Monza" ["SOFT", "MEDIUM"] 0 50 [12] ≠
      RunOutcome.gateFail := by
  refine C10_gate_recheck (fun _ _ => (10, 15, 20)) "Monza" ["SOFT", "MEDIUM"] 50 [12] ?_
  have hd : durability_ok "SOFT" (((10 : ℤ) : ℚ)) (((15 : ℤ) : ℚ)) (((20 : ℤ) : ℚ)) "Monza"
      = true := by
    refine (durability_ok_iff "SOFT" "Monza" _ _ _).mpr ?_
    have : specMaxLen "Monza" "SOFT" = 20 := by decide
    rw [this]
    constructor <;> push_cast <;> norm_num
  simp only [gatePass, gatePassFrom, Bool.and_true]
  exact hd

theorem fixupFrom_length (l : List ℤ) : ∀ prev : ℤ, (fixupFrom prev l).length = l.length := by
  induction l with
  | nil => intro prev; rfl
  | cons c rest ih =>
    intro prev
    simp only [fixupFrom, List.length_cons, ih]

theorem fixupFrom_chain (l : List ℤ) : ∀ prev : ℤ,
    List.Chain (fun a b => a < b) prev (fixupFrom prev l) := by
  induction l with
  | nil => intro prev; exact List.Chain.nil
  | cons c rest ih =>
    intro prev
    simp only [fixupFrom]
    exact List.Chain.cons (by split_ifs <;> omega) (ih _)

theorem fixupFrom_le (l : List ℤ) : ∀ (prev A : ℤ), prev ≤ A →
    (∀ k (hk : k < l.length), l.get ⟨k, hk⟩ ≤ A + k + 1) →
    ∀ k (hk : k < (fixupFrom prev l).length),
      (fixupFrom prev l).get ⟨k, hk⟩ ≤ A + k + 1 := by
  induction l with
  | nil =>
    intro prev A _ _ k hk
    simp [fixupFrom] at hk
  | cons c rest ih =>
    intro prev A hprev hbound k hk
    have hc := hbound 0 (by simp)
    simp only [List.get] at hc
    cases k with
    | zero =>
      show (if c ≤ prev then prev + 1 else c) ≤ A + (0 : ℕ) + 1
      split_ifs <;> simp <;> omega
    | succ k2 =>
      have hk2 : k2 < (fixupFrom (if c ≤ prev then prev + 1 else c) rest).length := by
        simpa [fixupFrom, fixupFrom_length] using hk
      have hnext : (if c ≤ prev then prev + 1 else c) ≤ A + 1 := by
        split_ifs <;> omega
      have hrest : ∀ j (hj : j < rest.length), rest.get ⟨j, hj⟩ ≤ (A + 1) + j + 1 := by
        intro j hj
        have := hbound (j + 1) (by simpa using hj)
        simp only [List.get] at this
        push_cast at this ⊢
        omega
      have hres := ih (if c ≤ prev then prev + 1 else c) (A + 1) hnext hrest k2 hk2
      show (fixupFrom prev (c :: rest)).get ⟨k2 + 1, hk⟩ ≤ A + (k2 + 1 : ℕ) + 1
      simp only [fixupFrom, List.get] at hres ⊢
      push_cast at hres ⊢
      omega

theorem fixupFrom_getLastD_le (l : List ℤ) (prev A : ℤ) (hprev : prev ≤ A)
    (hbound : ∀ k (hk : k < l.length), l.get ⟨k, hk⟩ ≤ A + k + 1) :
    (fixupFrom prev l).getLastD prev ≤ A + l.length := by
  cases l with
  | nil => simpa [fixupFrom] using hprev
  | cons c rest =>
    have hlen : (fixupFrom prev (c :: rest)).length = rest.length + 1 := by
      simp [fixupFrom_length]
    have hne : fixupFrom prev (c :: rest) ≠ [] := by
      intro h
      rw [h] at hlen
      simp at hlen
    have hlast := List.getLast_eq_get (fixupFrom prev (c :: rest)) hne
    rw [List.getLastD_eq_getLast? , List.getLast?_eq_getLast _ hne, Option.getD_some, hlast]
    have := fixupFrom_le (c :: rest) prev A hprev hbound
      ((fixupFrom prev (c :: rest)).length - 1)
      (by rw [hlen]; omega)
    calc (fixupFrom prev (c :: rest)).get _ ≤
        A + ((fixupFrom prev (c :: rest)).length - 1 : ℕ) + 1 := this
      _ ≤ A + (c :: rest).length := by
          rw [hlen]
          push_cast
          simp
          omega

theorem fixupFrom_append_singleton (l : List ℤ) : ∀ (prev x : ℤ),
    fixupFrom prev (l ++ [x]) = fixupFrom prev l ++
      [if x ≤ (fixupFrom prev l).getLastD prev
       then (fixupFrom prev l).getLastD prev + 1 else x] := by
  induction l with
  | nil => intro prev x; simp [fixupFrom]
  | cons c rest ih =>
    intro prev x
    simp only [List.cons_append, fixupFrom, List.append_eq]
    rw [ih]
    rw [List.getLastD_cons]

theorem bumpLast_of_chain (l : List ℤ) : ∀ prev : ℤ,
    List.Chain (fun a b => a < b) prev l → bumpLast (prev :: l) = prev :: l := by
  induction l with
  | nil => intro prev _; rfl
  | cons b rest ih =>
    intro prev hch
    obtain ⟨hab, hrest⟩ := List.chain_cons.mp hch
    cases rest with
    | nil =>
      simp only [bumpLast]
      rw [max_eq_left (by omega)]
    | cons c rest2 =>
      simp only [bumpLast]
      rw [ih b hrest]

theorem buildStints_spec (tpl : List String) : ∀ (start : ℤ) (cuts : List ℤ),
    cuts.length = tpl.length →
    List.Chain (fun a b => a < b) start cuts →
    ∃ s, buildStints tpl start cuts = some s ∧
      s.length = tpl.length ∧
      List.Chain' (fun a b => a.2.2 = b.2.1) s ∧
      (∀ b ∈ s.head?, b.2.1 = start) ∧
      (∀ b ∈ s.getLast?, b.2.2 = cuts.getLastD start) ∧
      (s.map fun st => st.2.2 - st.2.1).sum = cuts.getLastD start - start := by
  induction tpl with
  | nil =>
    intro start cuts hlen _
    have hc : cuts = [] := List.length_eq_zero.mp (by simpa using hlen)
    subst hc
    exact ⟨[], rfl, rfl, List.chain'_nil, by simp, by simp, by simp⟩
  | cons c cs ih =>
    intro start cuts hlen hch
    cases cuts with
    | nil => simp at hlen
    | cons e rest =>
      obtain ⟨hse, hrest⟩ := List.chain_cons.mp hch
      obtain ⟨s2, hbs, hslen, hchain, hhead, hlast, hsum⟩ :=
        ih e rest (by simpa using hlen) hrest
      refine ⟨(c, start, e) :: s2, ?_, ?_, ?_, ?_, ?_, ?_⟩
      · simp only [buildStints]
        rw [if_neg (by omega), hbs]
        rfl
      · simp [hslen]
      · refine List.chain'_cons'.mpr ⟨?_, hchain⟩
        intro b hb
        exact (hhead b hb).symm
      · intro b hb
        simp only [List.head?_cons, Option.mem_def, Option.some.injEq] at hb
        subst hb
        rfl
      · intro b hb
        cases s2 with
        | nil =>
          have hrest0 : rest = [] := by
            have h1 : cs.length = 0 := by simpa using hslen.symm
            have h2 : rest.length = 0 := by
              have := hlen
              simp at this
              omega
            exact List.length_eq_zero.mp h2
          subst hrest0
          simp only [List.getLast?_singleton, Option.mem_def, Option.some.injEq] at hb
          subst hb
          simp [List.getLastD_cons]
        | cons s0 stl =>
          rw [List.getLast?_cons_cons] at hb
          rw [List.getLastD_cons]
          exact hlast b hb
      · simp only [List.map_cons, List.sum_cons, hsum, List.getLastD_cons]
        ring

theorem windowsCore_spec (tpl : List String) (mids : List ℤ) (tl A : ℤ)
    (h1 : 1 ≤ A)
    (hlen : mids.length + 1 = tpl.length)
    (hb : ∀ k (hk : k < mids.length), mids.get ⟨k, hk⟩ ≤ A + k + 1)
    (hAl : A + mids.length ≤ tl) :
    (windowsCore tpl mids tl).length = tpl.length ∧
    List.Chain' (fun a b => a.2.2 = b.2.1) (windowsCore tpl mids tl) ∧
    (∀ b ∈ (windowsCore tpl mids tl).head?, b.2.1 = 1) ∧
    (∀ b ∈ (windowsCore tpl mids tl).getLast?, b.2.2 = tl + 1) ∧
    ((windowsCore tpl mids tl).map fun st => st.2.2 - st.2.1).sum = tl := by
  have hlastD := fixupFrom_getLastD_le mids 1 A h1 hb
  have happ := fixupFrom_append_singleton mids 1 (tl + 1)
  rw [if_neg (by omega)] at happ
  have hch := fixupFrom_chain (mids ++ [tl + 1]) 1
  have hbump := bumpLast_of_chain (fixupFrom 1 (mids ++ [tl + 1])) 1 hch
  have hblen : (fixupFrom 1 (mids ++ [tl + 1])).length = tpl.length := by
    rw [fixupFrom_length]
    simp only [List.length_append, List.length_singleton]
    omega
  obtain ⟨s, hbs, hsl, hchain, hhead, hlast2, hsum⟩ :=
    buildStints_spec tpl 1 (fixupFrom 1 (mids ++ [tl + 1])) hblen hch
  have hgl : (fixupFrom 1 (mids ++ [tl + 1])).getLastD 1 = tl + 1 := by
    rw [happ]
    exact List.getLastD_concat _ _ _
  rw [hgl] at hlast2 hsum
  have hcore : windowsCore tpl mids tl = s := by
    unfold windowsCore
    rw [hbump]
    dsimp only
    rw [hbs]
  rw [hcore]
  refine ⟨hsl, hchain, hhead, hlast2, ?_⟩
  rw [hsum]
  ring

/-- C4 (counterexample): the claim fails on a reachable input where the
template has one more stint than there are laps.  With total_laps = 2 —
the circuit resolver accepts any metadata value — the 3-stint template
[HARD, HARD, HARD] (reachable with fia_rule = False) passes the
durability gate on the missing-model quantile triple (15, 22, 35); every
contributing simulation run chooses the lap counts [1, 1, 0] whatever the
generator draws, so both pit windows degenerate to (1, 1, 1) and
(2, 2, 2), and `_windows_to_stints` then returns the stints
[(1, 2), (2, 3), (3, 4)]: their lengths sum to 3 ≠ total_laps = 2 and the
last stint ends at lap 4 ≠ total_laps + 1 = 3. -/
theorem C4_counterexample :
    gatePass (fun _ _ => (15, 22, 35)) "Imola" ["HARD", "HARD", "HARD"] = true ∧
    simStints (fun _ _ => (15, 22, 35)) "Imola" ["HARD", "HARD", "HARD"] 0 2 [20, 20] =
      RunOutcome.valid [1, 1, 0] ∧
    ([1, 1, 0] : List ℤ).sum = 2 ∧
    windows_to_stints ["HARD", "HARD", "HARD"] [(1, 1, 1), (2, 2, 2)] 2 =
      [("HARD", 1, 2), ("HARD", 2, 3), ("HARD", 3, 4)] ∧
    ((windows_to_stints ["HARD", "HARD", "HARD"] [(1, 1, 1), (2, 2, 2)] 2).map
        fun st => st.2.2 - st.2.1).sum ≠ 2 ∧
    ¬(∀ b ∈ (windows_to_stints ["HARD", "HARD", "HARD"] [(1, 1, 1), (2, 2, 2)] 2).getLast?,
        b.2.2 = 2 + 1) := by
  have hd : durability_ok "HARD" (((15 : ℤ) : ℚ)) (((22 : ℤ) : ℚ)) (((35 : ℤ) : ℚ)) "Imola"
      = true := by
    refine (durability_ok_iff "HARD" "Imola" _ _ _).mpr ?_
    have hm : specMaxLen "Imola" "HARD" = 48 := by decide
    rw [hm]
    constructor <;> push_cast <;> norm_num
  have hwts : windows_to_stints ["HARD", "HARD", "HARD"] [(1, 1, 1), (2, 2, 2)] 2 =
      [("HARD", 1, 2), ("HARD", 2, 3), ("HARD", 3, 4)] := by rfl
  refine ⟨?_, ?_, by norm_num, hwts, ?_, ?_⟩
  · simp only [gatePass, gatePassFrom, hd, Bool.and_true, Bool.and_self]
  · simp only [simStints, hd, if_true, drawLen]
    norm_num
  · rw [hwts]
    norm_num
  · rw [hwts]
    intro hall
    have := hall ("HARD", 3, 4) (by rfl)
    norm_num at this

/-- C4 (amended): for every candidate returned by `predict` whose template
length is at most total_laps, the stint list is contiguous and ordered —
each stint ends where the next starts, the first stint starts at lap 1,
the last ends at total_laps + 1 (exclusive) — and the stint lengths sum
exactly to total_laps.  The window hypotheses hold for the windows
`predict` passes in: `_simulate_template` produces one window per pit
stop (so at least template length − 1 of them), and its percentile lower
bound is at most the largest cumulative pit lap of a contributing run,
which leaves at least one lap for every later non-final stint
(lo_k ≤ total_laps − (n − 2 − k)).  The length restriction
n ≤ total_laps is a genuine restriction: a contributing run only forces
n ≤ total_laps + 1 because its final stint may absorb 0 laps, and in the
reachable n = total_laps + 1 case the forced strictly-increasing cuts
overshoot the final boundary (see the counterexample). -/
theorem C4_stint_structure (tpl : List String) (ws : List (ℤ × ℤ × ℤ)) (tl : ℤ)
    (h2 : 2 ≤ tpl.length)
    (htl : (tpl.length : ℤ) ≤ tl)
    (hw : tpl.length - 1 ≤ ws.length)
    (hbound : ∀ k (hk : k < ws.length), k < tpl.length - 1 →
      (ws.get ⟨k, hk⟩).1 ≤ tl - ((tpl.length : ℤ) - 2 - k)) :
    (windows_to_stints tpl ws tl).length = tpl.length ∧
    List.Chain' (fun a b => a.2.2 = b.2.1) (windows_to_stints tpl ws tl) ∧
    (∀ b ∈ (windows_to_stints tpl ws tl).head?, b.2.1 = 1) ∧
    (∀ b ∈ (windows_to_stints tpl ws tl).getLast?, b.2.2 = tl + 1) ∧
    ((windows_to_stints tpl ws tl).map fun st => st.2.2 - st.2.1).sum = tl := by
  cases tpl with
  | nil => simp at h2
  | cons c1 t1 =>
    cases t1 with
    | nil => simp at h2
    | cons c2 rest =>
      have hcond : ¬(ws = [] ∨ ws.length < (c1 :: c2 :: rest).length - 1) := by
        push_neg
        constructor
        · intro hws
          subst hws
          simp at hw
        · omega
      have he : windows_to_stints (c1 :: c2 :: rest) ws tl =
          windowsCore (c1 :: c2 :: rest)
            ((ws.take ((c1 :: c2 :: rest).length - 1)).map fun w => clampCut tl w.1)
            tl := by
        simp only [windows_to_stints]
        rw [if_neg hcond]
      rw [he]
      set n := (c1 :: c2 :: rest).length with hn
      have hn2 : 2 ≤ n := by simp [hn]
      refine windowsCore_spec (c1 :: c2 :: rest) _ tl (max 1 (tl - n + 1))
        (le_max_left 1 _) ?_ ?_ ?_
      · simp only [List.length_map, List.length_take]
        omega
      · intro k hk
        have hk1 : k < (ws.take (n - 1)).length := by simpa using hk
        have hk2 : k < ws.length := by
          simp only [List.length_take] at hk1
          omega
        have hkn : k < n - 1 := by
          simp only [List.length_take] at hk1
          omega
        have hget : ((ws.take (n - 1)).map fun w => clampCut tl w.1).get ⟨k, hk⟩ =
            clampCut tl (ws.get ⟨k, hk2⟩).1 := by
          rw [List.get_eq_getElem, List.getElem_map, List.getElem_take,
            List.get_eq_getElem]
        rw [hget]
        have hlo := hbound k hk2 hkn
        unfold clampCut
        simp only [max_def, min_def]
        split_ifs <;> push_cast at * <;> omega
      · simp only [List.length_map, List.length_take]
        have : min (n - 1) ws.length = n - 1 := by omega
        rw [this]
        simp only [max_def]
        split_ifs <;> push_cast at * <;> omega

/-- Witness for the C4 theorem at a concrete input. -/
theorem C4_stint_structure_witness :
    (windows_to_stints ["SOFT", "MEDIUM"] [(20, 25, 30)] 50).length =
      (["SOFT", "MEDIUM"] : List String).length ∧
    List.Chain' (fun a b => a.2.2 = b.2.1)
      (windows_to_stints ["SOFT", "MEDIUM"] [(20, 25, 30)] 50) ∧
    (∀ b ∈ (windows_to_stints ["SOFT", "MEDIUM"] [(20, 25, 30)] 50).head?, b.2.1 = 1) ∧
    (∀ b ∈ (windows_to_stints ["SOFT", "MEDIUM"] [(20, 25, 30)] 50).getLast?,
      b.2.2 = 50 + 1) ∧
    ((windows_to_stints ["SOFT", "MEDIUM"] [(20, 25, 30)] 50).map
      fun st => st.2.2 - st.2.1).sum = 50 :=
  C4_stint_structure ["SOFT", "MEDIUM"] [(20, 25, 30)] 50 (by norm_num) (by norm_num)
    (by norm_num)
    (by
      intro k hk hk1
      have hk0 : k = 0 := by
        simp only [List.length_singleton] at hk
        omega
      subst hk0
      norm_num [List.get])

theorem sum_map_div (l : List ℚ) (c : ℚ) : (l.map fun x => x / c).sum = l.sum / c := by
  induction l with
  | nil => simp
  | cons x rest ih => simp [ih, add_div]

/-- C6: whenever at least one candidate survives simulation, the assigned
probabilities over all generated (pre-truncation) candidates sum exactly
to 1 (the float implementation is within 1e-6 of this); when the total
score is 0 every candidate gets the equal probability 1/N. -/
theorem C6_probabilities (scores : List ℚ) (h : scores ≠ []) :
    (probsFor scores).sum = 1 ∧
    (scores.sum = 0 → ∀ p ∈ probsFor scores, p = 1 / scores.length) := by
  have hn : scores.length ≠ 0 := fun hc => h (List.length_eq_zero.mp hc)
  have hnq : (scores.length : ℚ) ≠ 0 := Nat.cast_ne_zero.mpr hn
  constructor
  · unfold probsFor
    split_ifs with hpos
    · rw [sum_map_div]
      exact div_self (ne_of_gt hpos)
    · rw [List.sum_replicate, nsmul_eq_mul]
      field_simp
  · intro hzero p hp
    unfold probsFor at hp
    rw [if_neg (by rw [hzero]; exact lt_irrefl 0)] at hp
    exact List.eq_of_mem_replicate hp

/-- Witness for the C6 theorem at a concrete input. -/
theorem C6_probabilities_witness :
    (probsFor [1, 3]).sum = 1 ∧
    (([1, 3] : List ℚ).sum = 0 → ∀ p ∈ probsFor [1, 3], p = 1 / ([1, 3] : List ℚ).length) :=
  C6_probabilities [1, 3] (List.cons_ne_nil 1 [3])

/-- C7: the list `predict` returns is sorted in descending order of prob,
contains at most top_k candidates, and every returned candidate is one of
the scored candidates carried over unchanged — truncation never
renormalises, so the returned probabilities can sum to less than 1, as
the two equally likely candidates truncated to top_k = 1 show. -/
theorem C7_ranking :
    (∀ (results : List StrategyCandidate) (k : ℕ),
      (rankAndTruncate results k).length ≤ k ∧
      (rankAndTruncate results k).Pairwise (fun a b => b.prob ≤ a.prob) ∧
      ∀ c ∈ rankAndTruncate results k, c ∈ results) ∧
    ((rankAndTruncate [candA, candB] 1).map fun c => c.prob).sum < 1 := by
  have main : ∀ (results : List StrategyCandidate) (k : ℕ),
      (rankAndTruncate results k).length ≤ k ∧
      (rankAndTruncate results k).Pairwise (fun a b => b.prob ≤ a.prob) ∧
      ∀ c ∈ rankAndTruncate results k, c ∈ results := by
    intro results k
    refine ⟨List.length_take_le _ _, ?_, ?_⟩
    · have hs : (results.mergeSort fun a b : StrategyCandidate =>
          decide (b.prob ≤ a.prob)).Pairwise
            (fun a b => decide (b.prob ≤ a.prob) = true) :=
        List.sorted_mergeSort
          (fun a b c hab hbc => by
            simp only [decide_eq_true_eq] at *
            exact le_trans hbc hab)
          (fun a b => by
            simp only [Bool.or_eq_true, decide_eq_true_eq]
            exact le_total b.prob a.prob)
          results
      have hp : (results.mergeSort fun a b => decide (b.prob ≤ a.prob)).Pairwise
          (fun a b => b.prob ≤ a.prob) :=
        hs.imp fun hab => by simpa using hab
      exact hp.sublist (List.take_sublist _ _)
    · intro c hc
      have hms := (List.take_sublist k _).subset hc
      exact List.mem_mergeSort.mp hms
  refine ⟨main, ?_⟩
  have h1 := (main [candA, candB] 1).1
  have h3 := (main [candA, candB] 1).2.2
  rcases hout : rankAndTruncate [candA, candB] 1 with _ | ⟨x, rest⟩
  · simp
  · rw [hout] at h1 h3
    cases rest with
    | cons y t => simp at h1
    | nil =>
      have hx := h3 x (List.mem_cons_self x [])
      have hxp : x.prob = 1 / 2 := by
        rcases List.mem_cons.mp hx with rfl | hx2
        · rfl
        · rcases List.mem_cons.mp hx2 with rfl | hx3
          · rfl
          · cases hx3
      simp [hxp]
      norm_num

theorem popVarR_pair : popVarR [0, 2] = 1 := by
  unfold popVarR popMeanR
  norm_num

theorem popStdR_pair : popStdR [0, 2] = 1 := by
  unfold popStdR
  rw [popVarR_pair]
  exact Real.sqrt_one

theorem listMinR_pair : listMinR [0, 2] = 0 := by
  unfold listMinR
  simp [List.foldl]

theorem popMeanR_pair : popMeanR [0, 2] = 1 := by
  unfold popMeanR
  norm_num

/-- C2 (counterexample): on the two-element time vector [0, 2] (whose
population standard deviation is exactly 1) with unit priors, the code's
min-subtracting normalisation gives a different score vector than the
mean-subtracting normalisation the claim describes: the first score is
exp(0) = 1 under the code but exp(0.4 / (1 + 1e-9)) ≠ 1 under the claim. -/
theorem C2_counterexample :
    popVarR [0, 2] = 1 ∧
    scoresOf [0, 2] [1, 1] ≠ scoresSpecMean [0, 2] [1, 1] := by
  refine ⟨popVarR_pair, ?_⟩
  intro heq
  have hh := congrArg List.head? heq
  simp only [scoresOf, scoresSpecMean, normTimesR, normTimesSpecMean, List.map_cons,
    List.map_nil, List.zip_cons_cons, List.zip_nil_right, List.head?_cons,
    popStdR_pair, listMinR_pair, popMeanR_pair, Option.some.injEq] at hh
  rw [one_pow, one_mul, one_mul] at hh
  rw [Real.exp_eq_exp] at hh
  have hpos : (0 : ℝ) < 1 + 1 / 1000000000 := by norm_num
  field_simp at hh

/-- C2 (amended): each candidate's race time is normalised by subtracting
the population minimum (not the mean) of the simulated times and dividing
by the population standard deviation plus 1e-9, and the score equals
prior^3.0 * exp(-normalized_time * 0.4). -/
theorem C2_score_formula (times priors : List ℝ) :
    scoresOf times priors = (priors.zip times).map fun pt =>
      pt.1 ^ (3 : ℕ) *
        Real.exp (-((pt.2 - listMinR times) / (popStdR times + 1 / 1000000000)) * (2 / 5)) := by
  unfold scoresOf normTimesR
  rw [List.zip_map_right, List.map_map]
  rfl

theorem predictModel_ok (oc : PredictOracles)
    (post : List StrategyCandidate → List StrategyCandidate)
    (circuit : String) (compounds : List String) (max_stops : ℕ)
    (fia_rule : Bool) (total_laps : ℤ) :
    ∃ l, predictModel true oc post circuit compounds max_stops fia_rule total_laps =
      Except.ok l := by
  unfold predictModel
  rw [if_neg (by decide)]
  dsimp only
  exact ⟨_, (apply_ite Except.ok _ _ _).symm⟩

/-- C9: `predict` raises the not-ready error exactly when the predictor is
uninitialized; on an initialized predictor the no-viable-strategy case is
not an error — when every durability-gated template is dropped by
simulation (and in particular when everything is gated out), the result
is the empty list. -/
theorem C9_not_ready (oc : PredictOracles)
    (post : List StrategyCandidate → List StrategyCandidate)
    (circuit : String) (compounds : List String) (max_stops : ℕ)
    (fia_rule : Bool) (total_laps : ℤ) :
    (∀ initialized : Bool,
      (∃ e, predictModel initialized oc post circuit compounds max_stops fia_rule
          total_laps = Except.error e) ↔ initialized = false) ∧
    predictModel false oc post circuit compounds max_stops fia_rule total_laps =
      Except.error "Strategy Predictor not initialized" ∧
    ((∀ tpl, gatePass oc.quantiles circuit tpl = true → oc.simulate tpl = none) →
      predictModel true oc post circuit compounds max_stops fia_rule total_laps =
        Except.ok []) := by
  refine ⟨?_, rfl, ?_⟩
  · intro initialized
    cases initialized with
    | false => exact ⟨fun _ => rfl, fun _ => ⟨"Strategy Predictor not initialized", rfl⟩⟩
    | true =>
      constructor
      · rintro ⟨e, he⟩
        obtain ⟨l, hl⟩ := predictModel_ok oc post circuit compounds max_stops
          fia_rule total_laps
        rw [hl] at he
        cases he
      · intro h
        exact absurd h (by decide)
  · intro hdrop
    unfold predictModel
    rw [if_neg (by decide)]
    dsimp only
    rw [if_pos ?hres]
    case hres =>
      refine List.filterMap_eq_nil_iff.mpr ?_
      intro tpl htpl
      have hg := (List.mem_filter.mp htpl).2
      rw [hdrop tpl hg]

/-- Witness for the C9 theorem at a concrete input. -/
theorem C9_not_ready_witness :
    predictModel true ⟨fun _ _ => (10, 15, 20), fun _ => none⟩ id "Monaco"
      ["SOFT", "MEDIUM"] 2 true 60 = Except.ok [] :=
  (C9_not_ready ⟨fun _ _ => (10, 15, 20), fun _ => none⟩ id "Monaco"
    ["SOFT", "MEDIUM"] 2 true 60).2.2 (fun _ _ => rfl)

end VisionF1
